import Mathlib

/-!
Verification of the recipe-card repository's core algorithms: the docx
container reader (`NewDocx`), the recipe line state machine (`ParseFiles`),
the corpus loader (`RecipesFromPath`), the index synchronizer (the recipe
loop and pruning loop of `NewHandler`), and the fingerprint cache
persistence (`SaveItemIndex` / `GetItemIndex`).

The Go code is shallowly embedded: Go maps become association lists with
explicit lookup/assignment operations, byte slices become lists of
naturals, the search engine becomes an explicit mutation trace, and the
SHA-256 digest is abstracted by an arbitrary function applied to the exact
byte string the code feeds to the hasher.
-/

/-! ## Association lists, modelling Go maps -/

/-- Association-list lookup, modelling a Go map read `v, exists := m[k]`. -/
def lookupA {κ α : Type} [DecidableEq κ] : List (κ × α) → κ → Option α
  | [], _ => none
  | (k, v) :: rest, key => if k = key then some v else lookupA rest key

/-- Association-list write, modelling a Go map assignment `m[k] = v`. -/
def setA {κ α : Type} [DecidableEq κ] : List (κ × α) → κ → α → List (κ × α)
  | [], key, v => [(key, v)]
  | (k, w) :: rest, key, v =>
      if k = key then (key, v) :: rest else (k, w) :: setA rest key v

theorem lookupA_append {κ α : Type} [DecidableEq κ] (xs ys : List (κ × α)) (k : κ) :
    lookupA (xs ++ ys) k = match lookupA xs k with
      | some v => some v
      | none => lookupA ys k := by
  induction xs with
  | nil => simp [lookupA]
  | cons hd tl ih =>
      obtain ⟨k', v'⟩ := hd
      by_cases h : k' = k <;> simp [lookupA, h, ih]

theorem lookupA_append_of_some {κ α : Type} [DecidableEq κ] {xs : List (κ × α)}
    (ys : List (κ × α)) {k : κ} {v : α} (h : lookupA xs k = some v) :
    lookupA (xs ++ ys) k = some v := by
  rw [lookupA_append, h]

theorem lookupA_append_of_none {κ α : Type} [DecidableEq κ] {xs : List (κ × α)}
    (ys : List (κ × α)) {k : κ} (h : lookupA xs k = none) :
    lookupA (xs ++ ys) k = lookupA ys k := by
  rw [lookupA_append, h]

theorem lookupA_setA_self {κ α : Type} [DecidableEq κ] (xs : List (κ × α)) (k : κ) (v : α) :
    lookupA (setA xs k v) k = some v := by
  induction xs with
  | nil => simp [setA, lookupA]
  | cons hd tl ih =>
      obtain ⟨k', v'⟩ := hd
      by_cases h : k' = k <;> simp [setA, lookupA, h, ih]

theorem lookupA_setA_ne {κ α : Type} [DecidableEq κ] (xs : List (κ × α)) {k k' : κ} (v : α)
    (h : k' ≠ k) : lookupA (setA xs k v) k' = lookupA xs k' := by
  induction xs with
  | nil => simp [setA, lookupA, Ne.symm h]
  | cons hd tl ih =>
      obtain ⟨k0, v0⟩ := hd
      by_cases h0 : k0 = k
      · subst h0
        simp [setA, lookupA, Ne.symm h]
      · simp [setA, lookupA, h0, ih]

theorem setA_of_none {κ α : Type} [DecidableEq κ] {xs : List (κ × α)} {k : κ}
    (v : α) (h : lookupA xs k = none) : setA xs k v = xs ++ [(k, v)] := by
  induction xs with
  | nil => simp [setA]
  | cons hd tl ih =>
      obtain ⟨k', v'⟩ := hd
      by_cases h0 : k' = k
      · simp [lookupA, h0] at h
      · simp [lookupA, h0] at h
        simp [setA, h0, ih h]

theorem lookupA_mem {κ α : Type} [DecidableEq κ] {xs : List (κ × α)} {k : κ} {v : α}
    (h : lookupA xs k = some v) : (k, v) ∈ xs := by
  induction xs with
  | nil => simp [lookupA] at h
  | cons hd tl ih =>
      obtain ⟨k', v'⟩ := hd
      by_cases h0 : k' = k
      · subst h0
        simp [lookupA] at h
        simp [h]
      · simp [lookupA, h0] at h
        exact List.mem_cons_of_mem _ (ih h)

theorem lookupA_filterKey {κ α : Type} [DecidableEq κ] (xs : List (κ × α)) (p : κ → Bool)
    (k : κ) : lookupA (xs.filter (fun kv => p kv.1)) k =
      if p k then lookupA xs k else none := by
  induction xs with
  | nil => simp [lookupA]
  | cons hd tl ih =>
      obtain ⟨k', v'⟩ := hd
      by_cases h0 : k' = k
      · subst h0
        by_cases hp : p k' <;> simp [List.filter, lookupA, hp, ih]
      · by_cases hp : p k' <;> by_cases hpk : p k <;>
          simp [List.filter, lookupA, h0, hp, hpk, ih]

/-! ## ASCII string helpers, modelling the `strings` package functions used -/

/-- ASCII lowering of one character, modelling `strings.ToLower` at the
character level (every string the repository matches on is ASCII). -/
def lowerChar (c : Char) : Char :=
  if 65 ≤ c.toNat ∧ c.toNat ≤ 90 then Char.ofNat (c.toNat + 32) else c

/-- Model of `strings.ToLower`. -/
def toLowerAscii (s : String) : String := ⟨s.data.map lowerChar⟩

/-- Decides whether the first list is an initial segment of the second. -/
def leadsWith : List Char → List Char → Bool
  | [], _ => true
  | _ :: _, [] => false
  | p :: ps, x :: xs => p = x && leadsWith ps xs

/-- Decides whether `pat` occurs contiguously inside the second list,
modelling `strings.Contains`. -/
def hasSeq (pat : List Char) : List Char → Bool
  | [] => pat.isEmpty
  | x :: xs => leadsWith pat (x :: xs) || hasSeq pat xs

/-- Model of `strings.HasSuffix`. -/
def hasSuffixStr (s suf : String) : Bool :=
  leadsWith suf.data.reverse s.data.reverse

/-- Model of `strings.Replace(line, ":", "", -1)`: every colon character is
removed, wherever it occurs. -/
def removeColons (s : String) : String := ⟨s.data.filter (fun c => c ≠ ':')⟩

/-! ## Recipe data model (`recipe.go`) -/

/-- The `Recipe` struct of `recipe/recipe.go`.  The Go map `Info` is an
association list here; `Image` is the raw cover-image bytes. -/
structure Recipe where
  title : String
  info : List (String × List String)
  docxPath : String
  scanPaths : List String
  image : List Nat
deriving DecidableEq

/-- `ValidCategoriesOrder` of `recipe/recipe.go`, the display-precedence
order of the category names. -/
def ValidCategoriesOrder : List String :=
  ["serves", "oven temperature", "ingredients", "preparation", "tips"]

/-- The key set of the `validCategories` map of `recipe/recipe.go`. -/
def validCategories : List String :=
  ["oven temperature", "serves", "ingredients", "preparation", "tips"]

/-- Go map append `r.Info[g] = append(r.Info[g], line)`: extend the list at
a key, creating the key when absent. -/
def appendAt (m : List (String × List String)) (key line : String) :
    List (String × List String) :=
  match lookupA m key with
  | some l => setA m key (l ++ [line])
  | none => m ++ [(key, [line])]

/-! ## The `ParseFiles` line state machine (`recipe.go` lines 109-137) -/

/-- The loop state of `ParseFiles`: the `Recipe` fields being filled
(`title`, `info`) together with the loop-local variables `titleIsNext` and
`currentGroup`. -/
structure ParseState where
  title : String
  titleIsNext : Bool
  currentGroup : String
  info : List (String × List String)
deriving DecidableEq

/-- Whether a line triggers title capture: `strings.Contains(strings.ToLower(line), "recipe")`. -/
def trigLine (line : String) : Bool :=
  hasSeq "recipe".data (toLowerAscii line).data

/-- One iteration of the `ParseFiles` line loop. -/
def parseLine (st : ParseState) (line : String) : ParseState :=
  if st.title = "" then
    if st.titleIsNext then { st with title := line }
    else if trigLine line then { st with titleIsNext := true }
    else st
  else
    let lowerLine := toLowerAscii (removeColons line)
    if validCategories.contains lowerLine then { st with currentGroup := lowerLine }
    else if st.currentGroup = "" then st
    else { st with info := appendAt st.info st.currentGroup line }

/-- The initial state of the `ParseFiles` loop: empty title, `titleIsNext`
false, no current group, empty info map. -/
def initParseState : ParseState := ⟨"", false, "", []⟩

/-- The `ParseFiles` line loop run over a whole line sequence. -/
def parseFilesLines (lines : List String) : ParseState :=
  lines.foldl parseLine initParseState

/-! ## Lemmas about the line state machine -/

theorem parseLine_init_notrig {l : String} (h : trigLine l = false) :
    parseLine initParseState l = initParseState := by
  simp [parseLine, initParseState, h]

theorem foldl_parseLine_skip (junk rest : List String)
    (h : ∀ l ∈ junk, trigLine l = false) :
    List.foldl parseLine initParseState (junk ++ rest) =
      List.foldl parseLine initParseState rest := by
  induction junk with
  | nil => simp
  | cons hd tl ih =>
      have hhd : trigLine hd = false := h hd (List.mem_cons_self hd tl)
      have htl : ∀ l ∈ tl, trigLine l = false := fun l hl => h l (List.mem_cons_of_mem hd hl)
      simp only [List.cons_append, List.foldl_cons, parseLine_init_notrig hhd]
      exact ih htl

theorem parseLine_title_stable {st : ParseState} (l : String) (h : st.title ≠ "") :
    (parseLine st l).title = st.title := by
  simp only [parseLine, if_neg h]
  split
  · rfl
  · split <;> rfl

theorem foldl_parseLine_title_stable (rest : List String) {st : ParseState}
    (h : st.title ≠ "") : (List.foldl parseLine st rest).title = st.title := by
  induction rest generalizing st with
  | nil => rfl
  | cons hd tl ih =>
      have h2 : (parseLine st hd).title = st.title := parseLine_title_stable hd h
      simp only [List.foldl_cons]
      rw [ih (by rw [h2]; exact h), h2]

/-- C6: in the title-seeking phase, when a line whose lowercased form
contains "recipe" is followed by at least one further line, the extracted
title is exactly the line following the first such triggering line, and
the lines before the triggering line are discarded (parsing the sequence
with or without them gives the same state); a sequence with no triggering
line, or whose only triggering line is last, yields an empty title. -/
theorem parseFiles_title_seeking (junk : List String) (t next : String) (rest : List String)
    (hjunk : ∀ l ∈ junk, trigLine l = false) (ht : trigLine t = true) (hnext : next ≠ "") :
    ((parseFilesLines (junk ++ t :: next :: rest)).title = next
      ∧ parseFilesLines (junk ++ t :: next :: rest) = parseFilesLines (t :: next :: rest))
    ∧ (∀ lines : List String, (∀ l ∈ lines, trigLine l = false) →
        (parseFilesLines lines).title = "")
    ∧ (∀ junk2 : List String, ∀ t2 : String, (∀ l ∈ junk2, trigLine l = false) →
        trigLine t2 = true → (parseFilesLines (junk2 ++ [t2])).title = "") := by
  refine ⟨⟨?_, ?_⟩, ?_, ?_⟩
  · unfold parseFilesLines
    rw [foldl_parseLine_skip junk _ hjunk]
    have h1 : parseLine initParseState t = ⟨"", true, "", []⟩ := by
      simp [parseLine, initParseState, ht]
    have h2 : parseLine (⟨"", true, "", []⟩ : ParseState) next = ⟨next, true, "", []⟩ := by
      simp [parseLine]
    simp only [List.foldl_cons, h1, h2]
    exact foldl_parseLine_title_stable rest hnext
  · unfold parseFilesLines
    exact foldl_parseLine_skip junk _ hjunk
  · intro lines hlines
    unfold parseFilesLines
    have : lines = lines ++ [] := by simp
    rw [this, foldl_parseLine_skip lines [] hlines]
    rfl
  · intro junk2 t2 hjunk2 ht2
    unfold parseFilesLines
    rw [foldl_parseLine_skip junk2 _ hjunk2]
    simp [parseLine, initParseState, ht2]

theorem parseFiles_title_seeking_witness :
    (parseFilesLines ["intro text", "Grandma's Recipe", "Apple Pie", "Ingredients:",
      "2 cups flour"]).title = "Apple Pie" :=
  ((parseFiles_title_seeking ["intro text"] "Grandma's Recipe" "Apple Pie"
    ["Ingredients:", "2 cups flour"] (by decide) (by decide) (by decide)).1).1

/-! ## Category matching in the content phase -/

/-- The category matcher as the claim words it: strip only a trailing
colon, lowercase, and compare with the fixed category names. -/
def claimStripTrailingColon (s : String) : String :=
  if hasSuffixStr s ":" then ⟨s.data.dropLast⟩ else s

/-- Category predicate as the claim words it (trailing colon only). -/
def claimOpensCategory (line : String) : Bool :=
  validCategories.contains (toLowerAscii (claimStripTrailingColon line))

/-- C3 counterexample: the line "Ingre:dients" has no trailing colon, so
under the claim's rule it matches no category name and would be content;
the code removes every colon, so the line opens the "ingredients"
category, and subsequent content is stored under it. -/
theorem parseFiles_category_colon_counterexample :
    claimOpensCategory "Ingre:dients" = false
    ∧ (parseLine ⟨"Pie", true, "", []⟩ "Ingre:dients").currentGroup = "ingredients"
    ∧ (parseFilesLines ["My Recipe", "Pie", "Ingre:dients", "2 cups flour"]).info
        = [("ingredients", ["2 cups flour"])] := by decide

/-- C3 (amended): in the content phase a line opens a category section if
and only if its lowercased form, after removing every colon character
(wherever it occurs), exactly equals one of the fixed category names; a
non-matching line is appended to the current category, or discarded when
no category is set. -/
theorem parseFiles_category_matching (st : ParseState) (line : String) (h : st.title ≠ "") :
    (validCategories.contains (toLowerAscii (removeColons line)) = true →
        parseLine st line = { st with currentGroup := toLowerAscii (removeColons line) })
    ∧ (validCategories.contains (toLowerAscii (removeColons line)) = false →
        (st.currentGroup = "" → parseLine st line = st)
        ∧ (st.currentGroup ≠ "" →
            parseLine st line = { st with info := appendAt st.info st.currentGroup line })) := by
  constructor
  · intro hm
    have hm' : toLowerAscii (removeColons line) ∈ validCategories := by simpa using hm
    simp [parseLine, h, hm']
  · intro hm
    have hm' : toLowerAscii (removeColons line) ∉ validCategories := by simpa using hm
    constructor
    · intro hg
      simp [parseLine, h, hm', hg]
    · intro hg
      simp [parseLine, h, hm', hg]

theorem parseFiles_category_matching_witness :
    parseLine ⟨"Pie", true, "", []⟩ "Serves:" = ⟨"Pie", true, "serves", []⟩ :=
  (parseFiles_category_matching ⟨"Pie", true, "", []⟩ "Serves:" (by decide)).1 (by decide)

/-! ## The content digest of the Index Synchronizer (part_001 lines 210-221) -/

/-- The exact byte string `NewHandler` feeds to the SHA-256 hasher for one
recipe: `io.WriteString(hasher, recip.Title)` followed, for each category
of `ValidCategoriesOrder` that exists in the info map, by one write per
stored line, with no separators.  Sequential hasher writes hash the
concatenation of what was written. -/
def hashData (r : Recipe) : String :=
  ValidCategoriesOrder.foldl (fun acc cat =>
    match lookupA r.info cat with
    | some info => info.foldl (fun a line => a ++ line) acc
    | none => acc) r.title

/-- Concatenation of a list of strings in order. -/
def concatStrs (l : List String) : String := l.foldr (fun s a => s ++ a) ""

/-- The digest input as the spec words it: the concatenation of the title
followed by, for each category in the fixed precedence order (serves, oven
temperature, ingredients, preparation, tips) that is present, every line
of that category in stored order. -/
def specDigestData (r : Recipe) : String :=
  r.title ++ concatStrs
    ((["serves", "oven temperature", "ingredients", "preparation", "tips"].map
      (fun c => concatStrs ((lookupA r.info c).getD []))))

theorem foldl_append_str (l : List String) (acc : String) :
    l.foldl (fun a line => a ++ line) acc = acc ++ concatStrs l := by
  induction l generalizing acc with
  | nil => simp [concatStrs]
  | cons s tl ih =>
      have : concatStrs (s :: tl) = s ++ concatStrs tl := rfl
      rw [List.foldl_cons, ih, this, String.append_assoc]

theorem hash_step_eq (o : Option (List String)) (acc : String) :
    (match o with
      | some info => info.foldl (fun a line => a ++ line) acc
      | none => acc) = acc ++ concatStrs (o.getD []) := by
  cases o with
  | none => simp [concatStrs]
  | some l => simpa using foldl_append_str l acc

/-- C7: for every recipe with a non-empty title, the digest input computed
by the Synchronizer equals the spec's description (title, then every line
of every present category in fixed precedence order), and two recipes
whose spec-level concatenations differ receive different hash inputs. -/
theorem hashData_spec (r : Recipe) (h : r.title ≠ "") :
    hashData r = specDigestData r
    ∧ ∀ r2 : Recipe, r2.title ≠ "" → specDigestData r ≠ specDigestData r2 →
        hashData r ≠ hashData r2 := by
  have key : ∀ rr : Recipe, hashData rr = specDigestData rr := by
    intro rr
    unfold hashData specDigestData ValidCategoriesOrder
    simp only [List.foldl_cons, List.foldl_nil, hash_step_eq, List.map_cons, List.map_nil]
    have cnil : concatStrs [] = "" := rfl
    have ccons : ∀ (s : String) (tl : List String),
        concatStrs (s :: tl) = s ++ concatStrs tl := fun _ _ => rfl
    simp only [ccons, cnil, String.append_assoc, String.append_empty]
  exact ⟨key r, fun r2 _ hne => by rw [key r, key r2]; exact hne⟩

theorem hashData_spec_witness :
    hashData ⟨"Pie", [("tips", ["chill"]), ("serves", ["4", "hungry"])], "/p.docx", [], []⟩
      = "Pie4hungrychill" :=
  (hashData_spec ⟨"Pie", [("tips", ["chill"]), ("serves", ["4", "hungry"])], "/p.docx", [], []⟩
    (by decide)).1.trans (by decide)

/-! ## The docx container reader `NewDocx` (part_000 lines 32-83) -/

/-- One entry of the zip archive: its path inside the archive and its
decompressed bytes (kept as a string, as Go reads them). -/
structure ZipEntry where
  name : String
  data : String
deriving DecidableEq

/-- The `Docx` struct: captured document-body bytes and cover-image bytes,
each `nil` (`none`) until found. -/
structure Docx where
  xmlData : Option String
  image : Option String
deriving DecidableEq

/-- The recognized document-body path (`xmlFileName`). -/
def xmlFileName : String := "word/document.xml"

/-- The docx error value `ErrMissingDocument`. -/
inductive DocxErr where
  | missingDocument
deriving DecidableEq

/-- The entry scan loop of `NewDocx`: stop once both artifacts are
captured; otherwise capture the first image-suffixed entry as the cover
image and the entry whose lowercased path equals `word/document.xml` as
the body. -/
def newDocxLoop : List ZipEntry → Docx → Docx
  | [], d => d
  | e :: es, d =>
      if d.xmlData.isSome && d.image.isSome then d
      else
        let lowerFileName := toLowerAscii e.name
        if d.image.isNone && (hasSuffixStr lowerFileName ".jpg"
            || hasSuffixStr lowerFileName ".jpeg") then
          newDocxLoop es { d with image := some e.data }
        else if d.xmlData.isNone && lowerFileName = xmlFileName then
          newDocxLoop es { d with xmlData := some e.data }
        else newDocxLoop es d

/-- `NewDocx`: scan the archive entries, then succeed only when the final
check `doc.xmlData != nil && doc.Image != nil` passes, otherwise return
`ErrMissingDocument`. -/
def NewDocx (entries : List ZipEntry) : Except DocxErr Docx :=
  let d := newDocxLoop entries ⟨none, none⟩
  if d.xmlData.isSome && d.image.isSome then .ok d
  else .error .missingDocument

/-- C1: the code contradicts the claim (and its own comment on
`ErrMissingDocument`): an archive that contains the document body at
`word/document.xml` but no image entry is rejected with
`ErrMissingDocument`, because the final success check requires BOTH the
body and an image; with an image present the same body succeeds. -/
theorem newDocx_missing_image_bug :
    NewDocx [⟨"word/document.xml", "<w:document><w:body>text</w:body></w:document>"⟩]
        = .error .missingDocument
    ∧ NewDocx [⟨"word/document.xml", "<w:document><w:body>text</w:body></w:document>"⟩,
        ⟨"word/media/image1.JPG", "imagebytes"⟩]
        = .ok ⟨some "<w:document><w:body>text</w:body></w:document>", some "imagebytes"⟩
    ∧ NewDocx [⟨"word/media/image1.jpeg", "imagebytes"⟩] = .error .missingDocument := by
  refine ⟨rfl, rfl, rfl⟩

/-! ## The corpus loader `RecipesFromPath` (recipe.go lines 142-186) -/

/-- One entry yielded by `filepath.Walk`: the path and whether it is a
directory. -/
structure WalkEntry where
  path : String
  isDir : Bool
deriving DecidableEq

/-- The walk filter of `RecipesFromPath`: skip directories and files whose
lowercased path does not end in ".docx". -/
def isDocxEntry (e : WalkEntry) : Bool :=
  !e.isDir && hasSuffixStr (toLowerAscii e.path) ".docx"

/-- A freshly discovered recipe: only `DocxPath` is set. -/
def initRecipe (p : String) : Recipe := ⟨"", [], p, [], []⟩

/-- `RecipesFromPath` over a walk result: build one recipe per discovered
docx file (walk order), then run `ParseFiles` on each; the task's error
return is discarded (`recipe.ParseFiles()` inside the goroutine), and the
recipe stays in the returned slice whatever happened.  `parseFilesFn`
models one `ParseFiles` run: the updated recipe and the discarded error. -/
def RecipesFromPath (entries : List WalkEntry)
    (parseFilesFn : Recipe → Recipe × Option String) : List Recipe :=
  ((entries.filter isDocxEntry).map (fun e => initRecipe e.path)).map
    (fun r => (parseFilesFn r).1)

/-- A concrete `ParseFiles` behaviour where the document at "/r/a.docx"
fails extraction (its error is discarded and it stays untouched) and the
document at "/r/b.docx" parses to the recipe "Pie". -/
def failingParseFn (r : Recipe) : Recipe × Option String :=
  if r.docxPath = "/r/a.docx" then (r, some "Unable to find word/document.xml in docx")
  else ({ r with title := "Pie" }, none)

/-- C5 counterexample: with two discovered documents of which the first
fails extraction, the returned collection still has both entries — the
failing document is NOT dropped; it stays, unparsed, with an empty
title. -/
theorem recipesFromPath_failure_counterexample :
    RecipesFromPath [⟨"/r/a.docx", false⟩, ⟨"/r/b.docx", false⟩] failingParseFn
      = [⟨"", [], "/r/a.docx", [], []⟩, ⟨"Pie", [], "/r/b.docx", [], []⟩]
    ∧ (RecipesFromPath [⟨"/r/a.docx", false⟩, ⟨"/r/b.docx", false⟩] failingParseFn).length
        ≠ 1 := by
  refine ⟨by decide, by decide⟩

/-- C5 (amended): a single task's failure does not abort the batch, but
the failing document is NOT dropped either: the returned sequence contains
exactly one recipe per discovered document, in walk discovery order, the
extraction error being silently discarded. -/
theorem recipesFromPath_keeps_failures (entries : List WalkEntry)
    (parseFilesFn : Recipe → Recipe × Option String)
    (hp : ∀ r : Recipe, ((parseFilesFn r).1).docxPath = r.docxPath) :
    (RecipesFromPath entries parseFilesFn).length = (entries.filter isDocxEntry).length
    ∧ (RecipesFromPath entries parseFilesFn).map (fun r => r.docxPath)
        = (entries.filter isDocxEntry).map (fun e => e.path) := by
  constructor
  · simp [RecipesFromPath]
  · simp only [RecipesFromPath, List.map_map]
    apply List.map_congr_left
    intro e _
    simpa [initRecipe] using hp (initRecipe e.path)

theorem recipesFromPath_keeps_failures_witness :
    (RecipesFromPath [⟨"/r/a.docx", false⟩, ⟨"/r/sub", true⟩, ⟨"/r/b.docx", false⟩]
        failingParseFn).map (fun r => r.docxPath) = ["/r/a.docx", "/r/b.docx"] :=
  ((recipesFromPath_keeps_failures
      [⟨"/r/a.docx", false⟩, ⟨"/r/sub", true⟩, ⟨"/r/b.docx", false⟩] failingParseFn
      (fun r => by unfold failingParseFn; split <;> rfl)).2).trans (by decide)

/-! ## The Index Synchronizer (part_001 lines 191-254)

The bleve search index is modelled as a mutation trace: `Mut.index t doc`
records `handler.idx.Index(t, doc)` and `Mut.del t` records
`handler.idx.Delete(t)`.  SHA-256 is abstracted: an arbitrary `hashFn`
applied to the exact string `hashData` the code writes to the hasher.
`indexFails t` models the search engine rejecting `Index(t, _)`, upon
which `NewHandler` returns the error. -/

/-- One mutation applied to the search index. -/
inductive Mut where
  | index (title : String) (doc : Recipe)
  | del (title : String)
deriving DecidableEq

/-- The synchronizer state: `handler.recipes` (the accepted map, insertion
order kept), `itemIndex` (the fingerprint cache), and the mutation trace
sent to the search index so far. -/
structure SyncState (D : Type) where
  accepted : List (String × Recipe)
  cache : List (String × D)
  muts : List Mut
deriving DecidableEq

/-- One iteration of the recipe loop of `NewHandler`: skip empty titles,
skip duplicate titles, otherwise accept the recipe, and when the cache has
no entry or a differing digest, delete the stale index entry (when
present), write the cache entry and index the recipe; a rejected `Index`
aborts with the error (the trace so far is carried in the error). -/
def processRecipe {D : Type} [DecidableEq D] (hashFn : String → D)
    (indexFails : String → Bool) (st : SyncState D) (recip : Recipe) :
    Except (String × List Mut) (SyncState D) :=
  if recip.title = "" then .ok st
  else if (lookupA st.accepted recip.title).isSome then .ok st
  else
    let accepted := setA st.accepted recip.title recip
    let sha256sum := hashFn (hashData recip)
    match lookupA st.cache recip.title with
    | some oldSha =>
        if oldSha = sha256sum then .ok { st with accepted := accepted }
        else
          let muts := st.muts ++ [Mut.del recip.title]
          let cache := setA st.cache recip.title sha256sum
          if indexFails recip.title then .error ("Index fail", muts)
          else .ok ⟨accepted, cache, muts ++ [Mut.index recip.title recip]⟩
    | none =>
        let cache := setA st.cache recip.title sha256sum
        if indexFails recip.title then .error ("Index fail", st.muts)
        else .ok ⟨accepted, cache, st.muts ++ [Mut.index recip.title recip]⟩

/-- The recipe loop over the whole collection. -/
def syncLoop {D : Type} [DecidableEq D] (hashFn : String → D)
    (indexFails : String → Bool) :
    List Recipe → SyncState D → Except (String × List Mut) (SyncState D)
  | [], st => .ok st
  | r :: rs, st =>
      match processRecipe hashFn indexFails st r with
      | .ok st2 => syncLoop hashFn indexFails rs st2
      | .error e => .error e

/-- The pruning loop of `NewHandler` (part_001 lines 248-254): every cache
title absent from `handler.recipes` gets its index entry deleted and its
cache entry removed. -/
def pruneCache {D : Type} (st : SyncState D) : SyncState D :=
  { st with
    muts := st.muts ++ (st.cache.filter
        (fun kv => (lookupA st.accepted kv.1).isNone)).map (fun kv => Mut.del kv.1),
    cache := st.cache.filter (fun kv => (lookupA st.accepted kv.1).isSome) }

/-- The whole synchronization pass: the recipe loop from an empty accepted
map and the loaded cache, then the pruning loop. -/
def syncPass {D : Type} [DecidableEq D] (hashFn : String → D)
    (indexFails : String → Bool) (recipes : List Recipe)
    (itemIndex : List (String × D)) : Except (String × List Mut) (SyncState D) :=
  (syncLoop hashFn indexFails recipes ⟨[], itemIndex, []⟩).map pruneCache

/-! ## Step lemmas for the synchronizer -/

theorem processRecipe_empty {D : Type} [DecidableEq D] (hashFn : String → D)
    (indexFails : String → Bool) (st : SyncState D) {recip : Recipe}
    (h : recip.title = "") : processRecipe hashFn indexFails st recip = .ok st := by
  simp [processRecipe, h]

theorem processRecipe_dup {D : Type} [DecidableEq D] (hashFn : String → D)
    (indexFails : String → Bool) (st : SyncState D) {recip : Recipe}
    (h1 : recip.title ≠ "") (h : (lookupA st.accepted recip.title).isSome) :
    processRecipe hashFn indexFails st recip = .ok st := by
  simp [processRecipe, h1, h]

theorem processRecipe_hit {D : Type} [DecidableEq D] (hashFn : String → D)
    (indexFails : String → Bool) (st : SyncState D) {recip : Recipe}
    (h1 : recip.title ≠ "") (h2 : lookupA st.accepted recip.title = none)
    (h3 : lookupA st.cache recip.title = some (hashFn (hashData recip))) :
    processRecipe hashFn indexFails st recip =
      .ok { st with accepted := setA st.accepted recip.title recip } := by
  simp [processRecipe, h1, h2, h3]

/-- Characterization of a successful `processRecipe` step: either the
recipe was skipped (empty or duplicate title, state unchanged), or it was
accepted: the accepted map gains exactly this entry, the cache afterwards
holds this recipe's digest at its title and is unchanged elsewhere, and
any new mutation concerns this title only. -/
theorem processRecipe_ok_cases {D : Type} [DecidableEq D] {hashFn : String → D}
    {indexFails : String → Bool} {st : SyncState D} {recip : Recipe} {st2 : SyncState D}
    (hp : processRecipe hashFn indexFails st recip = .ok st2) :
    (st2 = st ∧ (recip.title = "" ∨ (lookupA st.accepted recip.title).isSome))
    ∨ (recip.title ≠ ""
        ∧ lookupA st.accepted recip.title = none
        ∧ st2.accepted = st.accepted ++ [(recip.title, recip)]
        ∧ lookupA st2.cache recip.title = some (hashFn (hashData recip))
        ∧ (∀ t, t ≠ recip.title → lookupA st2.cache t = lookupA st.cache t)
        ∧ (∀ m ∈ st2.muts, m ∈ st.muts ∨ m = Mut.del recip.title
            ∨ m = Mut.index recip.title recip)) := by
  by_cases h1 : recip.title = ""
  · rw [processRecipe_empty hashFn indexFails st h1] at hp
    cases hp
    exact Or.inl ⟨rfl, Or.inl h1⟩
  · cases hd : lookupA st.accepted recip.title with
    | some r0 =>
        rw [processRecipe_dup hashFn indexFails st h1 (by rw [hd]; rfl)] at hp
        cases hp
        exact Or.inl ⟨rfl, Or.inr rfl⟩
    | none =>
        refine Or.inr ⟨h1, rfl, ?_⟩
        have hacc := setA_of_none recip hd
        cases hc : lookupA st.cache recip.title with
        | some oldSha =>
            by_cases heq : oldSha = hashFn (hashData recip)
            · rw [processRecipe_hit hashFn indexFails st h1 hd (heq ▸ hc)] at hp
              cases hp
              refine ⟨hacc, by simp [hc, heq], fun t _ => rfl, fun m hm => Or.inl hm⟩
            · simp only [processRecipe, if_neg h1, hd, Option.isSome_none,
                Bool.false_eq_true, if_false, hc, if_neg heq] at hp
              by_cases hfail : indexFails recip.title
              · simp [hfail] at hp
              · rw [if_neg hfail] at hp
                cases hp
                refine ⟨hacc, lookupA_setA_self _ _ _,
                  fun t ht => lookupA_setA_ne _ _ ht, fun m hm => ?_⟩
                simp only [List.append_assoc, List.mem_append, List.mem_cons,
                  List.mem_singleton, List.not_mem_nil, or_false] at hm
                rcases hm with hm | hm | hm
                · exact Or.inl hm
                · exact Or.inr (Or.inl hm)
                · exact Or.inr (Or.inr hm)
        | none =>
            simp only [processRecipe, if_neg h1, hd, Option.isSome_none,
              Bool.false_eq_true, if_false, hc] at hp
            by_cases hfail : indexFails recip.title
            · simp [hfail] at hp
            · rw [if_neg hfail] at hp
              cases hp
              refine ⟨hacc, lookupA_setA_self _ _ _,
                fun t ht => lookupA_setA_ne _ _ ht, fun m hm => ?_⟩
              simp only [List.mem_append, List.mem_singleton] at hm
              rcases hm with hm | hm
              · exact Or.inl hm
              · exact Or.inr (Or.inr hm)

theorem syncLoop_cons_ok {D : Type} [DecidableEq D] {hashFn : String → D}
    {indexFails : String → Bool} {r : Recipe} {rs : List Recipe} {st st' : SyncState D}
    (h : syncLoop hashFn indexFails (r :: rs) st = .ok st') :
    ∃ st2, processRecipe hashFn indexFails st r = .ok st2
      ∧ syncLoop hashFn indexFails rs st2 = .ok st' := by
  unfold syncLoop at h
  cases hp : processRecipe hashFn indexFails st r with
  | ok st2 =>
      rw [hp] at h
      exact ⟨st2, rfl, h⟩
  | error e => rw [hp] at h; cases h

theorem lookupA_append_eq_none {κ α : Type} [DecidableEq κ] {xs ys : List (κ × α)} {k : κ}
    (h : lookupA (xs ++ ys) k = none) :
    lookupA xs k = none ∧ lookupA ys k = none := by
  cases hx : lookupA xs k with
  | some v => rw [lookupA_append_of_some ys hx] at h; cases h
  | none => rw [lookupA_append_of_none ys hx] at h; exact ⟨rfl, h⟩

/-- The accepted map only grows during the recipe loop. -/
theorem syncLoop_accepted_mono {D : Type} [DecidableEq D] {hashFn : String → D}
    {indexFails : String → Bool} :
    ∀ (rs : List Recipe) (st st' : SyncState D),
      syncLoop hashFn indexFails rs st = .ok st' →
      ∃ ext, st'.accepted = st.accepted ++ ext := by
  intro rs
  induction rs with
  | nil =>
      intro st st' h
      cases h
      exact ⟨[], by simp⟩
  | cons r rs ih =>
      intro st st' h
      obtain ⟨st2, hp, hrest⟩ := syncLoop_cons_ok h
      obtain ⟨ext, hext⟩ := ih st2 st' hrest
      rcases processRecipe_ok_cases hp with ⟨heq, _⟩ | ⟨_, _, hacc, _⟩
      · exact ⟨ext, by rw [hext, heq]⟩
      · exact ⟨(r.title, r) :: ext, by rw [hext, hacc, List.append_assoc]; rfl⟩

/-- Invariant of the recipe loop: every accepted recipe has its digest in
the cache under its title. -/
theorem syncLoop_cache_accepted {D : Type} [DecidableEq D] {hashFn : String → D}
    {indexFails : String → Bool} :
    ∀ (rs : List Recipe) (st st' : SyncState D),
      syncLoop hashFn indexFails rs st = .ok st' →
      (∀ t r, lookupA st.accepted t = some r →
          lookupA st.cache t = some (hashFn (hashData r))) →
      (∀ t r, lookupA st'.accepted t = some r →
          lookupA st'.cache t = some (hashFn (hashData r))) := by
  intro rs
  induction rs with
  | nil =>
      intro st st' h hinv
      cases h
      exact hinv
  | cons r rs ih =>
      intro st st' h hinv
      obtain ⟨st2, hp, hrest⟩ := syncLoop_cons_ok h
      rcases processRecipe_ok_cases hp with ⟨heq, _⟩ | ⟨_, hd, hacc, hself, hother, _⟩
      · exact ih st2 st' hrest (heq ▸ hinv)
      · refine ih st2 st' hrest ?_
        intro t r0 ht
        rw [hacc, lookupA_append] at ht
        cases hx : lookupA st.accepted t with
        | some rx =>
            rw [hx] at ht
            cases ht
            have htr : t ≠ r.title := by
              intro he
              rw [he, hd] at hx
              cases hx
            rw [hother t htr]
            exact hinv t r0 hx
        | none =>
            rw [hx] at ht
            simp only [lookupA, List.not_mem_nil] at ht
            by_cases he : r.title = t
            · rw [if_pos he] at ht
              cases ht
              exact he ▸ hself
            · rw [if_neg he] at ht
              cases ht

/-- Cache entries whose title is never accepted are untouched by the
recipe loop. -/
theorem syncLoop_cache_untouched {D : Type} [DecidableEq D] {hashFn : String → D}
    {indexFails : String → Bool} :
    ∀ (rs : List Recipe) (st st' : SyncState D),
      syncLoop hashFn indexFails rs st = .ok st' →
      ∀ t, lookupA st'.accepted t = none →
        lookupA st'.cache t = lookupA st.cache t := by
  intro rs
  induction rs with
  | nil =>
      intro st st' h t _
      cases h
      rfl
  | cons r rs ih =>
      intro st st' h t hnone
      obtain ⟨st2, hp, hrest⟩ := syncLoop_cons_ok h
      rcases processRecipe_ok_cases hp with ⟨heq, _⟩ | ⟨_, _, hacc, _, hother, _⟩
      · rw [ih st2 st' hrest t hnone, heq]
      · obtain ⟨ext, hext⟩ := syncLoop_accepted_mono rs st2 st' hrest
        have hnone2 : lookupA (st2.accepted ++ ext) t = none := hext ▸ hnone
        obtain ⟨h2, _⟩ := lookupA_append_eq_none hnone2
        rw [hacc] at h2
        obtain ⟨_, hsing⟩ := lookupA_append_eq_none h2
        have htr : t ≠ r.title := by
          intro he
          rw [he] at hsing
          simp [lookupA] at hsing
        rw [ih st2 st' hrest t hnone, hother t htr]

/-- Replay lemma: when a recipe-loop run succeeds and some cache already
holds the final digest of every title that run accepts, running the loop
over the same recipes from that cache (same starting accepted map, any
engine) accepts the same map, never writes the cache and never mutates
the index. -/
theorem syncLoop_replay {D : Type} [DecidableEq D] {hashFn : String → D}
    {f f2 : String → Bool} :
    ∀ (rs : List Recipe) (st stF : SyncState D) (Cs : List (String × D)) (m2 : List Mut),
      syncLoop hashFn f rs st = .ok stF →
      (∀ t r, lookupA stF.accepted t = some r →
          lookupA Cs t = some (hashFn (hashData r))) →
      syncLoop hashFn f2 rs ⟨st.accepted, Cs, m2⟩ = .ok ⟨stF.accepted, Cs, m2⟩ := by
  intro rs
  induction rs with
  | nil =>
      intro st stF Cs m2 h _
      cases h
      rfl
  | cons r rs ih =>
      intro st stF Cs m2 h hc
      obtain ⟨st2, hp, hrest⟩ := syncLoop_cons_ok h
      rcases processRecipe_ok_cases hp with ⟨heq, hskip⟩ | ⟨h1, hd, hacc, _, _, _⟩
      · rw [heq] at hrest
        by_cases he : r.title = ""
        · have hstep : processRecipe hashFn f2 (⟨st.accepted, Cs, m2⟩ : SyncState D) r
              = .ok ⟨st.accepted, Cs, m2⟩ := processRecipe_empty _ _ _ he
          unfold syncLoop
          rw [hstep]
          exact ih st stF Cs m2 hrest hc
        · have hdup : (lookupA st.accepted r.title).isSome := by
            rcases hskip with he2 | hh
            · exact absurd he2 he
            · exact hh
          have hstep : processRecipe hashFn f2 (⟨st.accepted, Cs, m2⟩ : SyncState D) r
              = .ok ⟨st.accepted, Cs, m2⟩ := processRecipe_dup _ _ _ he hdup
          unfold syncLoop
          rw [hstep]
          exact ih st stF Cs m2 hrest hc
      · obtain ⟨ext, hext⟩ := syncLoop_accepted_mono rs st2 stF hrest
        have hlook : lookupA stF.accepted r.title = some r := by
          rw [hext, hacc, List.append_assoc, lookupA_append_of_none _ hd]
          simp [lookupA]
        have hcs := hc r.title r hlook
        have hstep : processRecipe hashFn f2 (⟨st.accepted, Cs, m2⟩ : SyncState D) r
            = .ok ⟨setA st.accepted r.title r, Cs, m2⟩ :=
          processRecipe_hit _ _ _ h1 hd hcs
        have hsetA : setA st.accepted r.title r = st.accepted ++ [(r.title, r)] :=
          setA_of_none r hd
        unfold syncLoop
        rw [hstep, show (⟨setA st.accepted r.title r, Cs, m2⟩ : SyncState D)
          = ⟨st2.accepted, Cs, m2⟩ by rw [hsetA, hacc]]
        exact ih st2 stF Cs m2 hrest hc

theorem syncPass_ok_elim {D : Type} [DecidableEq D] {hashFn : String → D}
    {indexFails : String → Bool} {recipes : List Recipe}
    {itemIndex : List (String × D)} {st1 : SyncState D}
    (h : syncPass hashFn indexFails recipes itemIndex = .ok st1) :
    ∃ stA, syncLoop hashFn indexFails recipes ⟨[], itemIndex, []⟩ = .ok stA
      ∧ st1 = pruneCache stA := by
  unfold syncPass at h
  cases hl : syncLoop hashFn indexFails recipes ⟨[], itemIndex, []⟩ with
  | ok stA =>
      rw [hl] at h
      simp only [Except.map] at h
      cases h
      exact ⟨stA, rfl, rfl⟩
  | error e => rw [hl] at h; cases h

/-- C2: idempotence of the synchronization pass.  If a pass over a corpus
and a cache succeeds with final state `st1`, then running the pass again
over the unchanged corpus and the cache `st1.cache` it produced succeeds
with the same accepted map, the same cache, and an EMPTY mutation trace:
no Index and no Delete calls reach the search index on the second run. -/
theorem sync_idempotent {D : Type} [DecidableEq D] (hashFn : String → D)
    (indexFails : String → Bool) (recipes : List Recipe)
    (itemIndex : List (String × D)) (st1 : SyncState D)
    (h1 : syncPass hashFn indexFails recipes itemIndex = .ok st1) :
    syncPass hashFn indexFails recipes st1.cache = .ok ⟨st1.accepted, st1.cache, []⟩ := by
  obtain ⟨stA, hloop, hst1⟩ := syncPass_ok_elim h1
  subst hst1
  have hinv : ∀ t r, lookupA stA.accepted t = some r →
      lookupA stA.cache t = some (hashFn (hashData r)) :=
    syncLoop_cache_accepted recipes ⟨[], itemIndex, []⟩ stA hloop
      (by intro t r hx; simp [lookupA] at hx)
  have hc : ∀ t r, lookupA stA.accepted t = some r →
      lookupA (pruneCache stA).cache t = some (hashFn (hashData r)) := by
    intro t r hx
    show lookupA (stA.cache.filter fun kv => (lookupA stA.accepted kv.1).isSome) t = _
    rw [lookupA_filterKey stA.cache (fun k => (lookupA stA.accepted k).isSome) t,
      if_pos (by rw [hx]; rfl)]
    exact hinv t r hx
  have hrep := @syncLoop_replay D _ hashFn indexFails indexFails recipes
    ⟨[], itemIndex, []⟩ stA ((pruneCache stA).cache) [] hloop hc
  unfold syncPass
  rw [show (⟨[], (pruneCache stA).cache, []⟩ : SyncState D)
    = ⟨(⟨[], itemIndex, []⟩ : SyncState D).accepted, (pruneCache stA).cache, []⟩ from rfl]
  rw [hrep]
  simp only [Except.map, Except.ok.injEq]
  have hall : ∀ kv ∈ (pruneCache stA).cache, (lookupA stA.accepted kv.1).isSome := by
    intro kv hkv
    have : kv ∈ stA.cache.filter (fun kv => (lookupA stA.accepted kv.1).isSome) := hkv
    exact (List.mem_filter.mp this).2
  show pruneCache ⟨stA.accepted, (pruneCache stA).cache, []⟩
      = ⟨(pruneCache stA).accepted, (pruneCache stA).cache, []⟩
  unfold pruneCache
  simp only [SyncState.mk.injEq]
  refine ⟨trivial, ?_, ?_⟩
  · exact List.filter_eq_self.mpr hall
  · have hnil : (List.filter (fun kv => (lookupA stA.accepted kv.1).isNone)
        (List.filter (fun kv => (lookupA stA.accepted kv.1).isSome) stA.cache)) = [] := by
      refine List.filter_eq_nil_iff.mpr ?_
      intro kv hkv hN
      have hsome := (List.mem_filter.mp hkv).2
      rw [Option.isNone_iff_eq_none] at hN
      rw [hN] at hsome
      cases hsome
    rw [hnil]
    rfl

/-- A concrete recipe used in witnesses. -/
def rPie : Recipe := ⟨"Pie", [("ingredients", ["flour"])], "/r/a.docx", [], []⟩

/-- A second concrete recipe used in witnesses. -/
def rCake : Recipe := ⟨"Cake", [("serves", ["4"])], "/r/b.docx", [], []⟩

theorem sync_idempotent_witness :
    syncPass (fun s : String => s) (fun _ => false) [rPie] []
      = .ok ⟨[("Pie", rPie)], [("Pie", "Pieflour")], [Mut.index "Pie" rPie]⟩
    ∧ syncPass (fun s : String => s) (fun _ => false) [rPie] [("Pie", "Pieflour")]
      = .ok ⟨[("Pie", rPie)], [("Pie", "Pieflour")], []⟩ :=
  ⟨rfl, sync_idempotent (fun s => s) (fun _ => false) [rPie] []
    ⟨[("Pie", rPie)], [("Pie", "Pieflour")], [Mut.index "Pie" rPie]⟩ rfl⟩

/-- C4 counterexample: with a search engine that rejects indexing "Pie",
synchronizing the two-recipe corpus [rPie, rCake] aborts with the Index
error and an empty applied-mutation trace: the pass does NOT continue with
the remaining recipe rCake (nothing is ever indexed), contradicting the
claim that processing continues. -/
theorem sync_index_failure_counterexample :
    syncPass (fun s : String => s) (fun t => t == "Pie") [rPie, rCake]
      ([] : List (String × String)) = .error ("Index fail", []) := rfl

theorem syncLoop_cons_error {D : Type} [DecidableEq D] {hashFn : String → D}
    {indexFails : String → Bool} {r : Recipe} (rs : List Recipe) {st : SyncState D}
    {e : String × List Mut} (he : processRecipe hashFn indexFails st r = .error e) :
    syncLoop hashFn indexFails (r :: rs) st = .error e := by
  unfold syncLoop
  rw [he]

/-- C4 (amended): when the search engine rejects the Index operation for a
recipe that reaches the indexing step, the synchronization pass aborts
with the error; the remaining recipes are not processed (the result does
not depend on them at all). -/
theorem sync_index_failure_aborts {D : Type} [DecidableEq D] (hashFn : String → D)
    (indexFails : String → Bool) (r : Recipe) (rest : List Recipe)
    (itemIndex : List (String × D)) (h1 : r.title ≠ "")
    (h2 : indexFails r.title = true)
    (h3 : lookupA itemIndex r.title ≠ some (hashFn (hashData r))) :
    (∃ e, syncPass hashFn indexFails (r :: rest) itemIndex = .error e)
    ∧ syncPass hashFn indexFails (r :: rest) itemIndex
        = syncPass hashFn indexFails [r] itemIndex := by
  have hd : lookupA ([] : List (String × Recipe)) r.title = none := rfl
  have hstep : ∃ e, processRecipe hashFn indexFails
      (⟨[], itemIndex, []⟩ : SyncState D) r = .error e := by
    cases hc : lookupA itemIndex r.title with
    | none =>
        refine ⟨("Index fail", []), ?_⟩
        simp only [processRecipe, if_neg h1, hd, Option.isSome_none,
          Bool.false_eq_true, if_false, hc]
        rw [if_pos h2]
    | some old =>
        have hne : old ≠ hashFn (hashData r) := fun heq => h3 (by rw [hc, heq])
        refine ⟨("Index fail", [Mut.del r.title]), ?_⟩
        simp only [processRecipe, if_neg h1, hd, Option.isSome_none,
          Bool.false_eq_true, if_false, hc, if_neg hne]
        rw [if_pos h2]
        simp
  obtain ⟨e, he⟩ := hstep
  have hrun1 : syncLoop hashFn indexFails (r :: rest) ⟨[], itemIndex, []⟩ = .error e :=
    syncLoop_cons_error rest he
  have hrun2 : syncLoop hashFn indexFails [r] ⟨[], itemIndex, []⟩ = .error e :=
    syncLoop_cons_error [] he
  constructor
  · exact ⟨e, by unfold syncPass; rw [hrun1]; rfl⟩
  · unfold syncPass
    rw [hrun1, hrun2]

theorem sync_index_failure_aborts_witness :
    (∃ e, syncPass (fun s : String => s) (fun t => t == "Pie") [rPie, rCake] [] = .error e)
    ∧ syncPass (fun s : String => s) (fun t => t == "Pie") [rPie, rCake] []
        = syncPass (fun s : String => s) (fun t => t == "Pie") [rPie] [] :=
  sync_index_failure_aborts (fun s => s) (fun t => t == "Pie") rPie [rCake] []
    (by decide) (by decide) (by decide)

/-- C8: after a successful pass, every title that was in the loaded cache
but was not accepted had its index entry deleted and its cache entry
removed, while every accepted title keeps a cache entry (holding its
digest). -/
theorem sync_prunes_stale {D : Type} [DecidableEq D] (hashFn : String → D)
    (indexFails : String → Bool) (recipes : List Recipe)
    (itemIndex : List (String × D)) (st1 : SyncState D)
    (h1 : syncPass hashFn indexFails recipes itemIndex = .ok st1) :
    (∀ t, (lookupA itemIndex t).isSome → lookupA st1.accepted t = none →
        Mut.del t ∈ st1.muts ∧ lookupA st1.cache t = none)
    ∧ (∀ t r, lookupA st1.accepted t = some r →
        lookupA st1.cache t = some (hashFn (hashData r))) := by
  obtain ⟨stA, hloop, hst1⟩ := syncPass_ok_elim h1
  subst hst1
  have hinv : ∀ t r, lookupA stA.accepted t = some r →
      lookupA stA.cache t = some (hashFn (hashData r)) :=
    syncLoop_cache_accepted recipes ⟨[], itemIndex, []⟩ stA hloop
      (by intro t r hx; simp [lookupA] at hx)
  constructor
  · intro t ht hn
    have hn' : lookupA stA.accepted t = none := hn
    have huntouched := syncLoop_cache_untouched recipes ⟨[], itemIndex, []⟩ stA hloop t hn'
    cases hv : lookupA itemIndex t with
    | none => rw [hv] at ht; cases ht
    | some v =>
        have hcach : lookupA stA.cache t = some v := by rw [huntouched]; exact hv
        have hmem : (t, v) ∈ stA.cache := lookupA_mem hcach
        constructor
        · show Mut.del t ∈ stA.muts ++ (stA.cache.filter
            (fun kv => (lookupA stA.accepted kv.1).isNone)).map (fun kv => Mut.del kv.1)
          refine List.mem_append_right _ ?_
          refine List.mem_map.mpr ⟨(t, v), ?_, rfl⟩
          refine List.mem_filter.mpr ⟨hmem, ?_⟩
          rw [hn']
          rfl
        · show lookupA (stA.cache.filter
            fun kv => (lookupA stA.accepted kv.1).isSome) t = none
          rw [lookupA_filterKey stA.cache (fun k => (lookupA stA.accepted k).isSome) t,
            if_neg (by rw [hn']; simp)]
  · intro t r hacc
    have hc := hinv t r hacc
    show lookupA (stA.cache.filter
      fun kv => (lookupA stA.accepted kv.1).isSome) t = some (hashFn (hashData r))
    rw [lookupA_filterKey stA.cache (fun k => (lookupA stA.accepted k).isSome) t,
      if_pos (by rw [show lookupA stA.accepted t = some r from hacc]; rfl)]
    exact hc

theorem sync_prunes_stale_witness :
    Mut.del "Gone" ∈ (⟨[("Pie", rPie)], [("Pie", "Pieflour")],
        [Mut.index "Pie" rPie, Mut.del "Gone"]⟩ : SyncState String).muts
    ∧ lookupA (⟨[("Pie", rPie)], [("Pie", "Pieflour")],
        [Mut.index "Pie" rPie, Mut.del "Gone"]⟩ : SyncState String).cache "Gone" = none :=
  (sync_prunes_stale (fun s : String => s) (fun _ => false) [rPie]
      [("Gone", "stalehash")]
      ⟨[("Pie", rPie)], [("Pie", "Pieflour")],
        [Mut.index "Pie" rPie, Mut.del "Gone"]⟩ rfl).1
    "Gone" (by decide) (by decide)

/-- First-wins invariant of the recipe loop: every Index mutation and
every accepted entry added by the run concerns a recipe with non-empty
title, recorded under its own title, that is the first recipe of the
processed list carrying that title (relative to a start state not already
holding the title). -/
theorem syncLoop_first_wins {D : Type} [DecidableEq D] {hashFn : String → D}
    {indexFails : String → Bool} :
    ∀ (rs : List Recipe) (st st' : SyncState D),
      syncLoop hashFn indexFails rs st = .ok st' →
      (∀ t r, Mut.index t r ∈ st'.muts → Mut.index t r ∈ st.muts
          ∨ (t = r.title ∧ r.title ≠ "" ∧ lookupA st.accepted r.title = none
              ∧ ∃ pre post, rs = pre ++ r :: post ∧ ∀ r' ∈ pre, r'.title ≠ r.title))
      ∧ (∀ t r, lookupA st'.accepted t = some r → lookupA st.accepted t = some r
          ∨ (t = r.title ∧ r.title ≠ "" ∧ lookupA st.accepted r.title = none
              ∧ ∃ pre post, rs = pre ++ r :: post ∧ ∀ r' ∈ pre, r'.title ≠ r.title)) := by
  intro rs
  induction rs with
  | nil =>
      intro st st' h
      cases h
      exact ⟨fun t r hm => Or.inl hm, fun t r hm => Or.inl hm⟩
  | cons r rs ih =>
      intro st st' h
      obtain ⟨st2, hp, hrest⟩ := syncLoop_cons_ok h
      obtain ⟨ihm, iha⟩ := ih st2 st' hrest
      rcases processRecipe_ok_cases hp with ⟨heq, hskip⟩ | ⟨h1, hd, hacc, _, _, hmuts⟩
      · rw [← heq] at hskip ⊢
        constructor
        · intro t r0 hm
          rcases ihm t r0 hm with hold | ⟨ht, hne, hnone, pre, post, hsplit, hfirst⟩
          · exact Or.inl hold
          · refine Or.inr ⟨ht, hne, hnone, r :: pre, post, by rw [hsplit]; rfl, ?_⟩
            intro r' hr'
            rcases List.mem_cons.mp hr' with hhead | hm2
            · subst hhead
              rcases hskip with hempty | hdup
              · rw [hempty]
                exact fun hcontra => hne hcontra.symm
              · intro hcontra
                rw [hcontra, hnone] at hdup
                cases hdup
            · exact hfirst r' hm2
        · intro t r0 ha
          rcases iha t r0 ha with hold | ⟨ht, hne, hnone, pre, post, hsplit, hfirst⟩
          · exact Or.inl hold
          · refine Or.inr ⟨ht, hne, hnone, r :: pre, post, by rw [hsplit]; rfl, ?_⟩
            intro r' hr'
            rcases List.mem_cons.mp hr' with hhead | hm2
            · subst hhead
              rcases hskip with hempty | hdup
              · rw [hempty]
                exact fun hcontra => hne hcontra.symm
              · intro hcontra
                rw [hcontra, hnone] at hdup
                cases hdup
            · exact hfirst r' hm2
      · constructor
        · intro t r0 hm
          rcases ihm t r0 hm with hold | ⟨ht, hne, hnone, pre, post, hsplit, hfirst⟩
          · rcases hmuts _ hold with hst | hdel | hidx
            · exact Or.inl hst
            · cases hdel
            · cases hidx
              exact Or.inr ⟨rfl, h1, hd, [], rs, rfl, by intro r' hr'; cases hr'⟩
          · rw [hacc] at hnone
            obtain ⟨hn1, hn2⟩ := lookupA_append_eq_none hnone
            have hrne : r.title ≠ r0.title := by
              intro hcontra
              rw [← hcontra] at hn2
              simp [lookupA] at hn2
            exact Or.inr ⟨ht, hne, hn1, r :: pre, post, by rw [hsplit]; rfl,
              fun r' hr' => by
                rcases List.mem_cons.mp hr' with hhead | hm2
                · subst hhead; exact hrne
                · exact hfirst r' hm2⟩
        · intro t r0 ha
          rcases iha t r0 ha with hold | ⟨ht, hne, hnone, pre, post, hsplit, hfirst⟩
          · rw [hacc, lookupA_append] at hold
            cases hx : lookupA st.accepted t with
            | some rx =>
                rw [hx] at hold
                cases hold
                exact Or.inl rfl
            | none =>
                rw [hx] at hold
                simp only [lookupA] at hold
                by_cases he : r.title = t
                · rw [if_pos he] at hold
                  cases hold
                  exact Or.inr ⟨he.symm, h1, hd, [], rs, rfl,
                    by intro r' hr'; cases hr'⟩
                · rw [if_neg he] at hold
                  cases hold
          · rw [hacc] at hnone
            obtain ⟨hn1, hn2⟩ := lookupA_append_eq_none hnone
            have hrne : r.title ≠ r0.title := by
              intro hcontra
              rw [← hcontra] at hn2
              simp [lookupA] at hn2
            exact Or.inr ⟨ht, hne, hn1, r :: pre, post, by rw [hsplit]; rfl,
              fun r' hr' => by
                rcases List.mem_cons.mp hr' with hhead | hm2
                · subst hhead; exact hrne
                · exact hfirst r' hm2⟩

/-- Every recipe of the list with a non-empty title ends up with an entry
in the accepted map (its own, or an earlier recipe with the same title). -/
theorem syncLoop_accept_complete {D : Type} [DecidableEq D] {hashFn : String → D}
    {indexFails : String → Bool} :
    ∀ (rs : List Recipe) (st st' : SyncState D),
      syncLoop hashFn indexFails rs st = .ok st' →
      ∀ r ∈ rs, r.title ≠ "" → (lookupA st'.accepted r.title).isSome := by
  intro rs
  induction rs with
  | nil =>
      intro st st' _ r hr
      cases hr
  | cons r rs ih =>
      intro st st' h r' hr' hne
      obtain ⟨st2, hp, hrest⟩ := syncLoop_cons_ok h
      rcases List.mem_cons.mp hr' with hhead | hmem
      · subst hhead
        obtain ⟨ext, hext⟩ := syncLoop_accepted_mono rs st2 st' hrest
        rcases processRecipe_ok_cases hp with ⟨heq, hskip⟩ | ⟨_, hd, hacc, _, _, _⟩
        · rcases hskip with hempty | hdup
          · exact absurd hempty hne
          · cases hx : lookupA st.accepted r'.title with
            | none => rw [hx] at hdup; cases hdup
            | some rx =>
                have hx2 : lookupA st2.accepted r'.title = some rx := by
                  rw [heq]; exact hx
                rw [hext, lookupA_append_of_some ext hx2]
                rfl
        · have hsome : lookupA st2.accepted r'.title = some r' := by
            rw [hacc, lookupA_append_of_none _ hd]
            simp [lookupA]
          rw [hext, lookupA_append_of_some ext hsome]
          rfl
      · exact ih st2 st' hrest r' hmem hne

/-- C9: after a successful pass, every Index mutation concerns a recipe
with a non-empty title, indexed under its own title, which is the FIRST
recipe in collection order carrying that title (so empty-titled recipes
are never indexed and later duplicates are never indexed); the accepted
map likewise holds exactly first occurrences; and every recipe with a
non-empty title has its title accepted (first occurrence wins). -/
theorem sync_first_wins {D : Type} [DecidableEq D] (hashFn : String → D)
    (indexFails : String → Bool) (recipes : List Recipe)
    (itemIndex : List (String × D)) (st1 : SyncState D)
    (h1 : syncPass hashFn indexFails recipes itemIndex = .ok st1) :
    (∀ t r, Mut.index t r ∈ st1.muts →
        t = r.title ∧ r.title ≠ ""
        ∧ ∃ pre post, recipes = pre ++ r :: post ∧ ∀ r' ∈ pre, r'.title ≠ r.title)
    ∧ (∀ t r, lookupA st1.accepted t = some r →
        t = r.title ∧ r.title ≠ ""
        ∧ ∃ pre post, recipes = pre ++ r :: post ∧ ∀ r' ∈ pre, r'.title ≠ r.title)
    ∧ (∀ r ∈ recipes, r.title ≠ "" → (lookupA st1.accepted r.title).isSome) := by
  obtain ⟨stA, hloop, hst1⟩ := syncPass_ok_elim h1
  subst hst1
  obtain ⟨lwm, lwa⟩ := syncLoop_first_wins recipes ⟨[], itemIndex, []⟩ stA hloop
  refine ⟨?_, ?_, ?_⟩
  · intro t r hm
    have hm' : Mut.index t r ∈ stA.muts := by
      have hm2 : Mut.index t r ∈ stA.muts ++ (stA.cache.filter
          (fun kv => (lookupA stA.accepted kv.1).isNone)).map
            (fun kv => Mut.del kv.1) := hm
      rcases List.mem_append.mp hm2 with hl | hr
      · exact hl
      · obtain ⟨kv, _, hkv⟩ := List.mem_map.mp hr
        cases hkv
    rcases lwm t r hm' with hold | ⟨ht, hne, _, pre, post, hsplit, hfirst⟩
    · cases hold
    · exact ⟨ht, hne, pre, post, hsplit, hfirst⟩
  · intro t r ha
    have ha' : lookupA stA.accepted t = some r := ha
    rcases lwa t r ha' with hold | ⟨ht, hne, _, pre, post, hsplit, hfirst⟩
    · cases hold
    · exact ⟨ht, hne, pre, post, hsplit, hfirst⟩
  · intro r hr hne
    exact syncLoop_accept_complete recipes ⟨[], itemIndex, []⟩ stA hloop r hr hne

/-- A duplicate-titled recipe from a different document, used in the C9
witness. -/
def rPieDup : Recipe := ⟨"Pie", [("tips", ["secret"])], "/r/c.docx", [], []⟩

theorem sync_first_wins_witness :
    "Pie" = rPie.title ∧ rPie.title ≠ ""
    ∧ ∃ pre post, [rPie, rPieDup] = pre ++ rPie :: post
        ∧ ∀ r' ∈ pre, r'.title ≠ rPie.title :=
  (sync_first_wins (fun s : String => s) (fun _ => false) [rPie, rPieDup] []
    ⟨[("Pie", rPie)], [("Pie", "Pieflour")], [Mut.index "Pie" rPie]⟩ rfl).2.1
    "Pie" rPie rfl

/-! ## Fingerprint cache persistence (part_001 lines 42-102)

Titles are Go strings, i.e. byte sequences; both titles and digests are
modelled as lists of bytes.  The newline delimiter is byte 10. -/

/-- `sha256.Size`: the fixed digest width. -/
def sha256Size : Nat := 32

/-- `SaveItemIndex`: for each (title, digest) record, write the title
bytes, one newline byte, then the raw digest bytes, records back to back
with no other framing. -/
def SaveItemIndex : List (List Nat × List Nat) → List Nat
  | [] => []
  | e :: rest => e.1 ++ (10 :: e.2) ++ SaveItemIndex rest

/-- `reader.ReadBytes('\x0a')`: split the stream at the first newline
byte, returning the bytes before it and the rest after it; `none` models
the io.EOF return when no newline remains (the caller then returns the
records read so far, discarding any trailing partial data). -/
def splitNl : List Nat → Option (List Nat × List Nat)
  | [] => none
  | b :: bs =>
      if b = 10 then some ([], bs)
      else (splitNl bs).map (fun p => (b :: p.1, p.2))

theorem splitNl_no_newline {data : List Nat} (h : ∀ b ∈ data, b ≠ 10) :
    splitNl data = none := by
  induction data with
  | nil => rfl
  | cons b bs ih =>
      have hb : b ≠ 10 := h b (List.mem_cons_self b bs)
      simp only [splitNl, if_neg hb, ih (fun x hx => h x (List.mem_cons_of_mem b hx))]
      rfl

theorem splitNl_record {key : List Nat} (rest : List Nat) (h : ∀ b ∈ key, b ≠ 10) :
    splitNl (key ++ 10 :: rest) = some (key, rest) := by
  induction key with
  | nil => simp [splitNl]
  | cons b bs ih =>
      have hb : b ≠ 10 := h b (List.mem_cons_self b bs)
      have ih' := ih (fun x hx => h x (List.mem_cons_of_mem b hx))
      show splitNl (b :: (bs ++ 10 :: rest)) = some (b :: bs, rest)
      simp only [splitNl, if_neg hb]
      rw [ih']
      rfl


/-- `bufio.NewReader`'s default buffer size. -/
def bufSize : Nat := 4096

/-- The buffered reader over the cache file: the unread bytes currently
held in the buffer window, and the bytes of the underlying file not yet
pulled into it. -/
structure BufReader where
  buf : List Nat
  rest : List Nat
deriving DecidableEq

/-- Refill on an empty buffer: one underlying file read returning up to
`bufSize` bytes (a regular-file read serves the full request until end of
file).  While unread bytes remain buffered, no refill happens. -/
def fill (br : BufReader) : BufReader :=
  if br.buf.isEmpty then ⟨br.rest.take bufSize, br.rest.drop bufSize⟩ else br

/-- `bufio.Reader.ReadBytes` up to a newline: scan the buffered window for
the delimiter, emptying the window into the accumulated result and
refilling when it holds no newline; returns the collected bytes (the
newline dropped, as the caller slices it off) and the reader positioned
after the newline, or `none` when the underlying stream ends first
(io.EOF; the caller then returns the records read so far, discarding the
partial data).  Fuel: one unit per refill. -/
def readBytesNl : Nat → BufReader → Option (List Nat × BufReader)
  | 0, _ => none
  | fuel + 1, br =>
      let br2 := fill br
      if br2.buf.isEmpty then none
      else
        match splitNl br2.buf with
        | some p => some (p.1, ⟨p.2, br2.rest⟩)
        | none => (readBytesNl fuel ⟨[], br2.rest⟩).map
            (fun p => (br2.buf ++ p.1, p.2))

/-- `bufio.Reader.Read` into the fresh zero-initialized `sha256.Size`-byte
slice: a refill happens only when the buffer is empty, after which
whatever the buffer holds is copied, up to the requested width, with a
NIL error — a short read when the buffer holds fewer bytes than requested
(a digest straddling a refill boundary), the zero tail of the slice left
in place and the missing bytes left unread; only an empty buffer at end
of file yields `(0, io.EOF)`.  Returns (slice contents, count read,
reader afterwards). -/
def bufRead (br : BufReader) (n : Nat) : List Nat × Nat × BufReader :=
  let br2 := fill br
  if br2.buf.isEmpty then (List.replicate n 0, 0, br2)
  else (br2.buf.take n ++ List.replicate (n - br2.buf.length) 0,
        min n br2.buf.length, ⟨br2.buf.drop n, br2.rest⟩)

/-- The record loop of `GetItemIndex`, with explicit fuel (one unit per
iteration of the unbounded Go loop; the inner fuel bounds the refills of
one `ReadBytes` call).  The Go check `err != nil && read != sha256.Size`
fires only on `(0, io.EOF)`: a SHORT read with nil error passes it and the
zero-padded slice is stored as the digest. -/
def getItemIndexLoop : Nat → BufReader → List (List Nat × List Nat) →
    Option (List (List Nat × List Nat))
  | 0, _, _ => none
  | fuel + 1, br, itemIndex =>
      match readBytesNl (br.buf.length + br.rest.length + 1) br with
      | none => some itemIndex
      | some (key, br2) =>
          let r := bufRead br2 sha256Size
          if r.2.1 = 0 then none
          else getItemIndexLoop fuel r.2.2 (setA itemIndex key r.1)

/-- `GetItemIndex` over a whole byte stream, starting from an unfilled
buffered reader (the fuel bound suffices: each record consumes at least
one byte). -/
def GetItemIndex (data : List Nat) : Option (List (List Nat × List Nat)) :=
  getItemIndexLoop (data.length + 1) ⟨[], data⟩ []

theorem fill_of_ne_nil {buf rest : List Nat} (h : buf ≠ []) :
    fill ⟨buf, rest⟩ = ⟨buf, rest⟩ := by
  unfold fill
  cases buf with
  | nil => exact absurd rfl h
  | cons b bs => rfl

theorem readBytesNl_record (fuel : Nat) {key : List Nat} (tail rest2 : List Nat)
    (hk : ∀ b ∈ key, b ≠ 10) :
    readBytesNl (fuel + 1) ⟨key ++ 10 :: tail, rest2⟩ = some (key, ⟨tail, rest2⟩) := by
  have hne : key ++ 10 :: tail ≠ [] := by
    cases key with
    | nil => exact List.cons_ne_nil _ _
    | cons b bs => exact List.cons_ne_nil _ _
  unfold readBytesNl
  rw [fill_of_ne_nil hne]
  have hempty : (key ++ 10 :: tail).isEmpty = false := by
    cases key <;> rfl
  simp only [hempty, Bool.false_eq_true, if_false, splitNl_record tail hk]

theorem readBytesNl_exhausted (fuel : Nat) :
    readBytesNl fuel ⟨[], []⟩ = none := by
  cases fuel with
  | zero => rfl
  | succ f => rfl

/-- Core of the round trip: when the whole remaining serialized tail is
already buffered (one buffer fill sufficed), the record loop reads back
exactly the saved records. -/
theorem getLoop_save : ∀ (m : List (List Nat × List Nat))
    (acc : List (List Nat × List Nat)) (fuel : Nat),
    (SaveItemIndex m).length < fuel →
    (m.map Prod.fst).Nodup →
    (∀ e ∈ m, ∀ b ∈ e.1, b ≠ 10) →
    (∀ e ∈ m, e.2.length = sha256Size) →
    (∀ e ∈ m, lookupA acc e.1 = none) →
    getItemIndexLoop fuel ⟨SaveItemIndex m, []⟩ acc = some (acc ++ m) := by
  intro m
  induction m with
  | nil =>
      intro acc fuel hfuel _ _ _ _
      cases fuel with
      | zero => cases hfuel
      | succ f =>
          unfold getItemIndexLoop
          rw [show SaveItemIndex [] = [] from rfl,
            readBytesNl_exhausted, List.append_nil]
  | cons e m ih =>
      intro acc fuel hfuel hnodup hkeys hlen hacc
      obtain ⟨k, d⟩ := e
      cases fuel with
      | zero => cases hfuel
      | succ f =>
          have hsave : SaveItemIndex ((k, d) :: m) = k ++ 10 :: (d ++ SaveItemIndex m) := by
            show k ++ (10 :: d) ++ SaveItemIndex m = _
            rw [List.append_assoc]
            rfl
          have hk10 : ∀ b ∈ k, b ≠ 10 := hkeys (k, d) (List.mem_cons_self _ _)
          have hd32 : d.length = sha256Size := hlen (k, d) (List.mem_cons_self _ _)
          have hbr : bufRead ⟨d ++ SaveItemIndex m, []⟩ sha256Size
              = (d, sha256Size, ⟨SaveItemIndex m, []⟩) := by
            have hdnil : d ++ SaveItemIndex m ≠ [] := by
              cases d with
              | nil => exact absurd hd32 (by decide)
              | cons x xs => exact List.cons_ne_nil _ _
            have hempty : (d ++ SaveItemIndex m).isEmpty = false := by
              cases d with
              | nil => exact absurd hd32 (by decide)
              | cons x xs => rfl
            unfold bufRead
            rw [fill_of_ne_nil hdnil]
            simp only [hempty, Bool.false_eq_true, if_false]
            have htake : (d ++ SaveItemIndex m).take sha256Size = d := by
              rw [← hd32]
              exact List.take_left d _
            have hdrop : (d ++ SaveItemIndex m).drop sha256Size = SaveItemIndex m := by
              rw [← hd32]
              exact List.drop_left d _
            have hpad : sha256Size - (d ++ SaveItemIndex m).length = 0 := by
              rw [List.length_append, hd32]
              omega
            have hmin : min sha256Size (d ++ SaveItemIndex m).length = sha256Size := by
              rw [List.length_append, hd32]
              exact Nat.min_eq_left (by omega)
            rw [htake, hdrop, hpad, hmin, List.replicate_zero, List.append_nil]
          unfold getItemIndexLoop
          rw [hsave, readBytesNl_record _ _ _ hk10]
          show (if (bufRead ⟨d ++ SaveItemIndex m, []⟩ sha256Size).2.1 = 0 then none
              else getItemIndexLoop f (bufRead ⟨d ++ SaveItemIndex m, []⟩ sha256Size).2.2
                (setA acc k (bufRead ⟨d ++ SaveItemIndex m, []⟩ sha256Size).1))
            = some (acc ++ (k, d) :: m)
          rw [hbr]
          have hcond : ¬((d, sha256Size, (⟨SaveItemIndex m, []⟩ : BufReader)).2.1 = 0) := by
            show ¬(sha256Size = 0)
            decide
          rw [if_neg hcond]
          show getItemIndexLoop f ⟨SaveItemIndex m, []⟩ (setA acc k d)
            = some (acc ++ (k, d) :: m)
          have hset : setA acc k d = acc ++ [(k, d)] :=
            setA_of_none d (hacc (k, d) (List.mem_cons_self _ _))
          have hfuel' : (SaveItemIndex m).length < f := by
            rw [hsave] at hfuel
            simp only [List.length_append, List.length_cons] at hfuel
            omega
          have hacc' : ∀ e2 ∈ m, lookupA (acc ++ [(k, d)]) e2.1 = none := by
            intro e2 he2
            rw [lookupA_append_of_none _ (hacc e2 (List.mem_cons_of_mem _ he2))]
            have hne : k ≠ e2.1 := by
              intro hcontra
              have hmem : e2.1 ∈ m.map Prod.fst := List.mem_map_of_mem Prod.fst he2
              rw [← hcontra] at hmem
              exact (List.nodup_cons.mp hnodup).1 hmem
            simp [lookupA, hne]
          rw [hset, ih (acc ++ [(k, d)]) f hfuel' (List.nodup_cons.mp hnodup).2
            (fun e2 he2 => hkeys e2 (List.mem_cons_of_mem _ he2))
            (fun e2 he2 => hlen e2 (List.mem_cons_of_mem _ he2)) hacc',
            List.append_assoc]
          rfl

/-- On a stream no longer than one buffer, the first `ReadBytes` behaves
as if the whole stream were already buffered (fuel-irrelevant: the only
recursion target is the exhausted reader). -/
theorem readBytesNl_fresh (f1 f2 : Nat) (data : List Nat) (h : data.length ≤ bufSize) :
    readBytesNl (f1 + 1) ⟨[], data⟩ = readBytesNl (f2 + 1) ⟨data, []⟩ := by
  cases data with
  | nil => rw [readBytesNl_exhausted, readBytesNl_exhausted]
  | cons b bs =>
      have h1 : fill ⟨[], b :: bs⟩ = ⟨b :: bs, []⟩ := by
        unfold fill
        rw [if_pos (show (⟨[], b :: bs⟩ : BufReader).buf.isEmpty = true from rfl)]
        show (⟨(b :: bs).take bufSize, (b :: bs).drop bufSize⟩ : BufReader) = ⟨b :: bs, []⟩
        rw [List.take_of_length_le h, List.drop_eq_nil_of_le h]
      have h2 : fill ⟨b :: bs, []⟩ = ⟨b :: bs, []⟩ :=
        fill_of_ne_nil (List.cons_ne_nil _ _)
      have hempty : (b :: bs).isEmpty = false := rfl
      unfold readBytesNl
      rw [h1, h2]
      cases hs : splitNl (b :: bs) with
      | some p => simp only [hempty, Bool.false_eq_true, if_false, hs]
      | none =>
          simp only [hempty, Bool.false_eq_true, if_false, hs,
            readBytesNl_exhausted, Option.map_none']

/-- Starting the record loop on an unfilled reader over a stream no longer
than one buffer equals starting it with the whole stream buffered. -/
theorem getLoop_fresh (fuel : Nat) (data : List Nat)
    (acc : List (List Nat × List Nat)) (h : data.length ≤ bufSize) :
    getItemIndexLoop (fuel + 1) ⟨[], data⟩ acc
      = getItemIndexLoop (fuel + 1) ⟨data, []⟩ acc := by
  unfold getItemIndexLoop
  rw [readBytesNl_fresh ((⟨[], data⟩ : BufReader).buf.length
      + (⟨[], data⟩ : BufReader).rest.length)
    ((⟨data, []⟩ : BufReader).buf.length + (⟨data, []⟩ : BufReader).rest.length) data h]

/-- C10 (amended): for every finite mapping from titles to 32-byte digests
whose titles contain no newline byte AND whose serialized form is no
longer than one `bufio` buffer (4096 bytes), loading the saved file
returns the original mapping; and the no-newline precondition stays
necessary: a newline title round-trips to a different mapping, because the
record format delimits the title by a newline with no escaping. -/
theorem itemIndex_roundtrip :
    (∀ m : List (List Nat × List Nat),
      (SaveItemIndex m).length ≤ bufSize →
      (m.map Prod.fst).Nodup →
      (∀ e ∈ m, ∀ b ∈ e.1, b ≠ 10) →
      (∀ e ∈ m, e.2.length = sha256Size) →
      GetItemIndex (SaveItemIndex m) = some m)
    ∧ GetItemIndex (SaveItemIndex [([10], List.replicate sha256Size 0)])
        ≠ some [([10], List.replicate sha256Size 0)] := by
  constructor
  · intro m hsize hnodup hkeys hlen
    unfold GetItemIndex
    rw [getLoop_fresh _ _ _ hsize,
      getLoop_save m [] _ (by omega) hnodup hkeys hlen (fun e _ => rfl)]
    rfl
  · decide

theorem itemIndex_roundtrip_witness :
    GetItemIndex (SaveItemIndex [([80, 105, 101], List.replicate 32 7),
        ([67, 97, 107, 101], List.replicate 32 9)])
      = some [([80, 105, 101], List.replicate 32 7),
        ([67, 97, 107, 101], List.replicate 32 9)] :=
  itemIndex_roundtrip.1 [([80, 105, 101], List.replicate 32 7),
    ([67, 97, 107, 101], List.replicate 32 9)] (by decide) (by decide) (by decide)
    (by decide)

/-- A title long enough that its record's digest straddles the 4096-byte
buffer boundary: 4090 bytes of the letter A. -/
def bigTitle : List Nat := List.replicate 4090 65

/-- A 32-byte digest of sevens. -/
def bigDigest : List Nat := List.replicate 32 7

/-- The straddling one-entry mapping. -/
def bigM : List (List Nat × List Nat) := [(bigTitle, bigDigest)]

/-- What `GetItemIndex` actually stores for `bigTitle`: the 5 digest bytes
still buffered after the title line, the remaining 27 bytes of the slice
left at their zero initialization. -/
def corruptDigest : List Nat := List.replicate 5 7 ++ List.replicate 27 0

theorem bigTitle_length : bigTitle.length = 4090 := by
  show (List.replicate 4090 65).length = 4090
  rw [List.length_replicate]

theorem bigDigest_length : bigDigest.length = 32 := by
  show (List.replicate 32 7).length = 32
  rw [List.length_replicate]

theorem bigTitle_no_newline : ∀ b ∈ bigTitle, b ≠ 10 := by
  intro b hb
  have hb2 : b = 65 := List.eq_of_mem_replicate hb
  subst hb2
  decide

theorem bigM_file : SaveItemIndex bigM = bigTitle ++ 10 :: bigDigest := by
  show bigTitle ++ (10 :: bigDigest) ++ SaveItemIndex [] = bigTitle ++ 10 :: bigDigest
  rw [show SaveItemIndex [] = [] from rfl, List.append_nil]

theorem bigM_take : (bigTitle ++ 10 :: bigDigest).take bufSize
    = bigTitle ++ 10 :: List.replicate 5 7 := by
  rw [List.take_append_eq_append_take,
    List.take_of_length_le (show bigTitle.length ≤ bufSize by rw [bigTitle_length]; decide),
    show bufSize - bigTitle.length = 6 by rw [bigTitle_length]; decide,
    show (6 : Nat) = 5 + 1 from rfl, List.take_succ_cons,
    show bigDigest = List.replicate 32 7 from rfl, List.take_replicate,
    show min 5 32 = 5 from by decide]

theorem bigM_drop : (bigTitle ++ 10 :: bigDigest).drop bufSize
    = List.replicate 27 7 := by
  rw [List.drop_append_eq_append_drop,
    List.drop_eq_nil_of_le (show bigTitle.length ≤ bufSize by rw [bigTitle_length]; decide),
    show bufSize - bigTitle.length = 6 by rw [bigTitle_length]; decide,
    show (6 : Nat) = 5 + 1 from rfl, List.drop_succ_cons,
    show bigDigest = List.replicate 32 7 from rfl, List.drop_replicate,
    List.nil_append,
    show (32 : Nat) - 5 = 27 from by decide]

/-- Reading one record off an unfilled reader: when the first buffer fill
starts with a newline-free key, its newline, and a tail, `ReadBytes`
returns the key with the tail still buffered. -/
theorem readBytesNl_fill_record (fuel : Nat) (data tail rest2 : List Nat)
    {key : List Nat} (hk : ∀ b ∈ key, b ≠ 10)
    (htake : data.take bufSize = key ++ 10 :: tail)
    (hdrop : data.drop bufSize = rest2) :
    readBytesNl (fuel + 1) ⟨[], data⟩ = some (key, ⟨tail, rest2⟩) := by
  have hfill : fill ⟨[], data⟩ = ⟨key ++ 10 :: tail, rest2⟩ := by
    unfold fill
    rw [if_pos (show (⟨[], data⟩ : BufReader).buf.isEmpty = true from rfl)]
    show (⟨data.take bufSize, data.drop bufSize⟩ : BufReader) = ⟨key ++ 10 :: tail, rest2⟩
    rw [htake, hdrop]
  have hempty : (key ++ 10 :: tail).isEmpty = false := by
    cases key <;> rfl
  unfold readBytesNl
  rw [hfill]
  simp only [hempty, Bool.false_eq_true, if_false, splitNl_record tail hk]

/-- Reading off an unfilled reader whose whole stream fits one buffer and
holds no newline: end of file, the partial data discarded. -/
theorem readBytesNl_fill_none (fuel : Nat) (data : List Nat) (hne : data ≠ [])
    (hlen : data.length ≤ bufSize) (hs : splitNl data = none) :
    readBytesNl (fuel + 1) ⟨[], data⟩ = none := by
  have hfill : fill ⟨[], data⟩ = ⟨data, []⟩ := by
    unfold fill
    rw [if_pos (show (⟨[], data⟩ : BufReader).buf.isEmpty = true from rfl)]
    show (⟨data.take bufSize, data.drop bufSize⟩ : BufReader) = ⟨data, []⟩
    rw [List.take_of_length_le hlen, List.drop_eq_nil_of_le hlen]
  have hempty : data.isEmpty = false := by
    cases data with
    | nil => exact absurd rfl hne
    | cons b bs => rfl
  unfold readBytesNl
  rw [hfill]
  simp only [hempty, Bool.false_eq_true, if_false, hs,
    readBytesNl_exhausted, Option.map_none']

theorem bigM_readBytes : ∀ f : Nat, readBytesNl (f + 1) ⟨[], SaveItemIndex bigM⟩
    = some (bigTitle, ⟨List.replicate 5 7, List.replicate 27 7⟩) :=
  fun f => readBytesNl_fill_record f (SaveItemIndex bigM)
    (List.replicate 5 7) (List.replicate 27 7) bigTitle_no_newline
    (by rw [bigM_file]; exact bigM_take) (by rw [bigM_file]; exact bigM_drop)

theorem bigM_bufRead : bufRead ⟨List.replicate 5 7, List.replicate 27 7⟩ sha256Size
    = (corruptDigest, 5, ⟨[], List.replicate 27 7⟩) := by decide

theorem bigM_lastIteration : ∀ f : Nat,
    getItemIndexLoop (f + 1) ⟨[], List.replicate 27 7⟩ [(bigTitle, corruptDigest)]
      = some [(bigTitle, corruptDigest)] := by
  intro f
  have hrb : ∀ f2 : Nat, readBytesNl (f2 + 1) ⟨[], List.replicate 27 7⟩ = none := by
    intro f2
    refine readBytesNl_fill_none f2 _ (by decide) ?_ (by decide)
    rw [List.length_replicate]
    decide
  unfold getItemIndexLoop
  rw [hrb ((⟨[], List.replicate 27 7⟩ : BufReader).buf.length
    + (⟨[], List.replicate 27 7⟩ : BufReader).rest.length)]

theorem bigM_length : (SaveItemIndex bigM).length = 4122 + 1 := by
  rw [bigM_file, List.length_append, List.length_cons, bigTitle_length, bigDigest_length]

/-- C10 counterexample: the mapping `bigM` satisfies every hypothesis of
the original claim (distinct titles, no newline in any title, 32-byte
digests), yet loading its saved file does NOT return it: its record is
4123 bytes long, so after the title line is consumed only 5 digest bytes
remain in the 4096-byte buffer; `Read` returns those 5 with a nil error,
the guard `err != nil && read != sha256.Size` passes, and the stored
digest keeps a zero tail while the remaining 27 digest bytes are
discarded as a partial record. -/
theorem itemIndex_roundtrip_counterexample :
    ((bigM.map Prod.fst).Nodup
      ∧ (∀ e ∈ bigM, ∀ b ∈ e.1, b ≠ 10)
      ∧ (∀ e ∈ bigM, e.2.length = sha256Size))
    ∧ GetItemIndex (SaveItemIndex bigM) = some [(bigTitle, corruptDigest)]
    ∧ GetItemIndex (SaveItemIndex bigM) ≠ some bigM := by
  have hkeys : ∀ e ∈ bigM, ∀ b ∈ e.1, b ≠ 10 := by
    intro e he
    rw [show bigM = [(bigTitle, bigDigest)] from rfl, List.mem_singleton] at he
    subst he
    exact bigTitle_no_newline
  have hnodup : (bigM.map Prod.fst).Nodup := by
    rw [show bigM.map Prod.fst = [bigTitle] from rfl]
    exact List.nodup_singleton _
  have hlens : ∀ e ∈ bigM, e.2.length = sha256Size := by
    intro e he
    rw [show bigM = [(bigTitle, bigDigest)] from rfl, List.mem_singleton] at he
    subst he
    show bigDigest.length = sha256Size
    rw [bigDigest_length]
    rfl
  have hmain : GetItemIndex (SaveItemIndex bigM) = some [(bigTitle, corruptDigest)] := by
    unfold GetItemIndex getItemIndexLoop
    rw [bigM_readBytes ((⟨[], SaveItemIndex bigM⟩ : BufReader).buf.length
      + (⟨[], SaveItemIndex bigM⟩ : BufReader).rest.length)]
    show (if (bufRead ⟨List.replicate 5 7, List.replicate 27 7⟩ sha256Size).2.1 = 0
        then none
        else getItemIndexLoop (SaveItemIndex bigM).length
          (bufRead ⟨List.replicate 5 7, List.replicate 27 7⟩ sha256Size).2.2
          (setA [] bigTitle
            (bufRead ⟨List.replicate 5 7, List.replicate 27 7⟩ sha256Size).1))
      = some [(bigTitle, corruptDigest)]
    rw [bigM_bufRead,
      if_neg (show ¬((corruptDigest, 5,
        (⟨[], List.replicate 27 7⟩ : BufReader)).2.1 = 0) from by decide)]
    show getItemIndexLoop (SaveItemIndex bigM).length ⟨[], List.replicate 27 7⟩
        (setA [] bigTitle corruptDigest) = some [(bigTitle, corruptDigest)]
    rw [show setA [] bigTitle corruptDigest = [(bigTitle, corruptDigest)] from rfl,
      bigM_length]
    exact bigM_lastIteration 4122
  refine ⟨⟨hnodup, hkeys, hlens⟩, hmain, ?_⟩
  rw [hmain]
  intro hcontra
  have h1 : [(bigTitle, corruptDigest)] = bigM := by injection hcontra
  have h2 : (bigTitle, corruptDigest) = (bigTitle, bigDigest) := by injection h1
  have h3 : corruptDigest = bigDigest := congrArg Prod.snd h2
  exact absurd h3 (by decide)
